import Mathlib

/-!
Verification of the relay / presence / retention core of the RVNZCOMM chat
application against its natural-language specification.

The embedding below follows the sources:
* the Socket.IO relay server (the `connectedUsers` map and the event
  handlers for `user:join`, `message:send`, `typing:start`, `typing:stop`
  and `disconnect`);
* the client-side `handleSendMessage` and `loadMessages` functions of the
  chat page (Supabase insert, count-based trim to 50 messages, realtime
  emit, initial history hydration);
* the SQL schema's `auto_delete_old_messages` trigger (3-day age expiry).

JavaScript `Map` objects are modelled as insertion-ordered association
lists with unique keys; timestamps are modelled as integers.
-/

namespace Rvnzcomm

/-- The participant payload a client sends with `user:join`
(`{userId, userName, userAvatar?}` in the server source). -/
structure UserSocket where
  userId : String
  userName : String
  userAvatar : Option String
deriving DecidableEq

/-- Association-list model of a JavaScript `Map<string, UserSocket>`:
insertion-ordered entries with unique keys. -/
abbrev Registry := List (String × UserSocket)

/-- `Map.set`: overwrite the entry in place when the key is present,
append a fresh entry otherwise. -/
def mapSet : Registry → String → UserSocket → Registry
  | [], k, v => [(k, v)]
  | (k0, v0) :: t, k, v =>
      if k0 = k then (k, v) :: t else (k0, v0) :: mapSet t k v

/-- `Map.delete`: drop the entry with the given key (on the duplicate-free
maps that arise this removes at most one entry). -/
def mapDelete : Registry → String → Registry
  | [], _ => []
  | (k0, v0) :: t, k =>
      if k0 = k then mapDelete t k else (k0, v0) :: mapDelete t k

/-- `Map.get`: the value stored under a key. -/
def mapGet : Registry → String → Option UserSocket
  | [], _ => none
  | (k0, v0) :: t, k => if k0 = k then some v0 else mapGet t k

/-- `Map.values`: the stored values in insertion order
(`Array.from(connectedUsers.values())` in the server source). -/
def mapValues (m : Registry) : List UserSocket :=
  m.map (fun p => p.2)

/-- The keys of the registry. -/
def mapKeys (m : Registry) : List String :=
  m.map (fun p => p.1)

/-- A single presence-registry operation: `connectedUsers.set` on
`user:join`, `connectedUsers.delete` on disconnect. -/
inductive RegOp where
  | register (cid : String) (u : UserSocket)
  | unregister (cid : String)

/-- Run one registry operation. -/
def applyOp (m : Registry) : RegOp → Registry
  | RegOp.register cid u => mapSet m cid u
  | RegOp.unregister cid => mapDelete m cid

/-- Run a sequence of registry operations from left to right. -/
def applyOps (ops : List RegOp) (m : Registry) : Registry :=
  ops.foldl applyOp m

/-- Specification-side account of one connectionId: after a sequence of
register/unregister calls, the entry held for `cid` is the participant of
the last `register` of `cid` not followed by an `unregister` of `cid`
(re-register overwrites, unregister removes); `acc` is the entry before
`ops` run. -/
def specLive (cid : String) : List RegOp → Option UserSocket → Option UserSocket
  | [], acc => acc
  | RegOp.register c u :: rest, acc =>
      specLive cid rest (if c = cid then some u else acc)
  | RegOp.unregister c :: rest, acc =>
      specLive cid rest (if c = cid then none else acc)

theorem mapSet_cons_eq (k : String) (v0 v : UserSocket) (t : Registry) :
    mapSet ((k, v0) :: t) k v = (k, v) :: t := by
  simp [mapSet]

theorem mapSet_cons_ne (k0 k : String) (v0 v : UserSocket) (t : Registry)
    (h : ¬ k0 = k) : mapSet ((k0, v0) :: t) k v = (k0, v0) :: mapSet t k v := by
  simp [mapSet, h]

theorem mapDelete_cons_eq (k : String) (v0 : UserSocket) (t : Registry) :
    mapDelete ((k, v0) :: t) k = mapDelete t k := by
  simp [mapDelete]

theorem mapDelete_cons_ne (k0 k : String) (v0 : UserSocket) (t : Registry)
    (h : ¬ k0 = k) : mapDelete ((k0, v0) :: t) k = (k0, v0) :: mapDelete t k := by
  simp [mapDelete, h]

theorem mapGet_cons (k0 k : String) (v0 : UserSocket) (t : Registry) :
    mapGet ((k0, v0) :: t) k = if k0 = k then some v0 else mapGet t k := rfl

theorem mapGet_mapSet (m : Registry) (k k' : String) (v : UserSocket) :
    mapGet (mapSet m k v) k' = if k = k' then some v else mapGet m k' := by
  induction m with
  | nil => simp [mapSet, mapGet]
  | cons a t ih =>
    obtain ⟨k0, v0⟩ := a
    by_cases h0 : k0 = k
    · subst h0
      rw [mapSet_cons_eq, mapGet_cons, mapGet_cons]
      by_cases h : k0 = k' <;> simp [h]
    · rw [mapSet_cons_ne _ _ _ _ _ h0, mapGet_cons, mapGet_cons, ih]
      by_cases h1 : k0 = k'
      · have hne : ¬ k = k' := fun he => h0 (h1.trans he.symm)
        simp [h1, hne]
      · simp [h1]

theorem mapGet_mapDelete (m : Registry) (k k' : String) :
    mapGet (mapDelete m k) k' = if k = k' then none else mapGet m k' := by
  induction m with
  | nil => simp [mapDelete, mapGet]
  | cons a t ih =>
    obtain ⟨k0, v0⟩ := a
    by_cases h0 : k0 = k
    · subst h0
      rw [mapDelete_cons_eq, ih, mapGet_cons]
      by_cases h : k0 = k' <;> simp [h]
    · rw [mapDelete_cons_ne _ _ _ _ h0, mapGet_cons, mapGet_cons, ih]
      by_cases h1 : k0 = k'
      · have hne : ¬ k = k' := fun he => h0 (h1.trans he.symm)
        simp [h1, hne]
      · simp [h1]

theorem mem_mapKeys_mapSet (m : Registry) (k k' : String) (v : UserSocket) :
    k' ∈ mapKeys (mapSet m k v) ↔ k' = k ∨ k' ∈ mapKeys m := by
  induction m with
  | nil => simp [mapSet, mapKeys]
  | cons a t ih =>
    obtain ⟨k0, v0⟩ := a
    by_cases h0 : k0 = k
    · subst h0
      rw [mapSet_cons_eq]
      simp only [mapKeys, List.map_cons, List.mem_cons]
      tauto
    · rw [mapSet_cons_ne _ _ _ _ _ h0]
      simp only [mapKeys, List.map_cons, List.mem_cons]
      simp only [mapKeys] at ih
      tauto

theorem mem_mapKeys_mapDelete (m : Registry) (k k' : String)
    (h : k' ∈ mapKeys (mapDelete m k)) : k' ∈ mapKeys m := by
  induction m with
  | nil => simp [mapDelete, mapKeys] at h
  | cons a t ih =>
    obtain ⟨k0, v0⟩ := a
    by_cases h0 : k0 = k
    · subst h0
      rw [mapDelete_cons_eq] at h
      simp only [mapKeys, List.map_cons, List.mem_cons]
      exact Or.inr (ih h)
    · rw [mapDelete_cons_ne _ _ _ _ h0] at h
      simp only [mapKeys, List.map_cons, List.mem_cons] at h ⊢
      rcases h with h | h
      · exact Or.inl h
      · exact Or.inr (ih h)

theorem nodup_mapKeys_mapSet (m : Registry) (k : String) (v : UserSocket)
    (h : (mapKeys m).Nodup) : (mapKeys (mapSet m k v)).Nodup := by
  induction m with
  | nil => simp [mapSet, mapKeys]
  | cons a t ih =>
    obtain ⟨k0, v0⟩ := a
    simp only [mapKeys, List.map_cons, List.nodup_cons] at h
    by_cases h0 : k0 = k
    · subst h0
      rw [mapSet_cons_eq]
      simp only [mapKeys, List.map_cons, List.nodup_cons]
      exact ⟨h.1, h.2⟩
    · rw [mapSet_cons_ne _ _ _ _ _ h0]
      simp only [mapKeys, List.map_cons, List.nodup_cons]
      refine ⟨?_, ih h.2⟩
      intro hmem
      rcases (mem_mapKeys_mapSet t k k0 v).1 hmem with h1 | h1
      · exact h0 h1
      · exact h.1 h1

theorem nodup_mapKeys_mapDelete (m : Registry) (k : String)
    (h : (mapKeys m).Nodup) : (mapKeys (mapDelete m k)).Nodup := by
  induction m with
  | nil => simp [mapDelete, mapKeys]
  | cons a t ih =>
    obtain ⟨k0, v0⟩ := a
    simp only [mapKeys, List.map_cons, List.nodup_cons] at h
    by_cases h0 : k0 = k
    · subst h0
      rw [mapDelete_cons_eq]
      exact ih h.2
    · rw [mapDelete_cons_ne _ _ _ _ h0]
      simp only [mapKeys, List.map_cons, List.nodup_cons]
      exact ⟨fun hmem => h.1 (mem_mapKeys_mapDelete t k k0 hmem), ih h.2⟩

theorem mapGet_applyOps (ops : List RegOp) (m : Registry) (cid : String) :
    mapGet (applyOps ops m) cid = specLive cid ops (mapGet m cid) := by
  induction ops generalizing m with
  | nil => rfl
  | cons op rest ih =>
    cases op with
    | register c u =>
      show mapGet (applyOps rest (mapSet m c u)) cid = _
      rw [ih, mapGet_mapSet]
      rfl
    | unregister c =>
      show mapGet (applyOps rest (mapDelete m c)) cid = _
      rw [ih, mapGet_mapDelete]
      rfl

theorem nodup_mapKeys_applyOps (ops : List RegOp) (m : Registry)
    (h : (mapKeys m).Nodup) : (mapKeys (applyOps ops m)).Nodup := by
  induction ops generalizing m with
  | nil => exact h
  | cons op rest ih =>
    cases op with
    | register c u => exact ih _ (nodup_mapKeys_mapSet m c u h)
    | unregister c => exact ih _ (nodup_mapKeys_mapDelete m c h)

theorem mem_iff_mapGet (m : Registry) (h : (mapKeys m).Nodup)
    (k : String) (v : UserSocket) : (k, v) ∈ m ↔ mapGet m k = some v := by
  induction m with
  | nil => simp [mapGet]
  | cons a t ih =>
    obtain ⟨k0, v0⟩ := a
    simp only [mapKeys, List.map_cons, List.nodup_cons] at h
    rw [List.mem_cons, mapGet_cons]
    by_cases h0 : k0 = k
    · subst h0
      rw [if_pos rfl]
      constructor
      · rintro (he | hmem)
        · rw [Prod.mk.injEq] at he
          rw [he.2]
        · exact absurd (List.mem_map_of_mem Prod.fst hmem) h.1
      · intro hv
        exact Or.inl (by rw [Prod.mk.injEq]; exact ⟨rfl, (Option.some.inj hv).symm⟩)
    · rw [if_neg h0]
      rw [ih h.2]
      constructor
      · rintro (he | hmem)
        · rw [Prod.mk.injEq] at he
          exact absurd he.1.symm h0
        · exact hmem
      · exact Or.inr

/-- Claim C1: for every finite sequence of register (`user:join`) and
unregister (disconnect) operations on the presence registry, starting from
the empty registry, the registry holds exactly the entries whose
connectionId was registered and not subsequently unregistered (with the
participant of the last register), and its keys are free of duplicates:
re-registering a connectionId overwrites and never duplicates, so there is
at most one entry per connectionId. -/
theorem registry_list_exact (ops : List RegOp) :
    (mapKeys (applyOps ops ([] : Registry))).Nodup ∧
    (∀ cid, mapGet (applyOps ops ([] : Registry)) cid = specLive cid ops none) ∧
    ∀ cid u, ((cid, u) ∈ applyOps ops ([] : Registry) ↔ specLive cid ops none = some u) := by
  have hnd : (mapKeys (applyOps ops ([] : Registry))).Nodup :=
    nodup_mapKeys_applyOps ops [] (by simp [mapKeys])
  have hget : ∀ cid, mapGet (applyOps ops ([] : Registry)) cid = specLive cid ops none := by
    intro cid
    have := mapGet_applyOps ops [] cid
    simpa [mapGet] using this
  refine ⟨hnd, hget, ?_⟩
  intro cid u
  rw [mem_iff_mapGet _ hnd, hget cid]

/-! ## Retention store

A row of the `messages` table, as written by the client-side insert
(`id, user_id, user_name, user_avatar, content, created_at`; the client's
separate `timestamp` field is not part of the insert). `created_at` is a
TIMESTAMPTZ, modelled as an integer. -/

structure Row where
  id : String
  user_id : String
  user_name : String
  user_avatar : Option String
  content : String
  created_at : Int
deriving DecidableEq

/-- Comparison on creation time, the sort key of
`order('created_at', { ascending: true })`. -/
def rowLe (a b : Row) : Prop := a.created_at ≤ b.created_at

instance : DecidableRel rowLe :=
  fun a b => inferInstanceAs (Decidable (a.created_at ≤ b.created_at))

instance : IsTotal Row rowLe := ⟨fun a b => Int.le_total a.created_at b.created_at⟩

instance : IsTrans Row rowLe := ⟨fun _ _ _ hab hbc => le_trans hab hbc⟩

/-- The store read ordered by creation time ascending (a stable sort;
ties broken by insertion order). -/
def readAsc (store : List Row) : List Row :=
  List.insertionSort rowLe store

/-- The identifiers selected for deletion by the count-based trim: the
oldest `count - 50` rows of the ascending read, when the count exceeds 50
the slice `allMessages.slice(0, allMessages.length - 50)` in the source. -/
def idsToDelete (store : List Row) : List String :=
  ((readAsc store).take ((readAsc store).length - 50)).map Row.id

/-- The count-based trim run after each successful insert: read all
messages ordered by creation time ascending; if more than 50 exist,
delete the oldest `count - 50` rows by identifier. -/
def trim (store : List Row) : List Row :=
  if (readAsc store).length > 50 then
    if (idsToDelete store).length > 0 then
      store.filter (fun m => m.id ∉ idsToDelete store)
    else store
  else store

/-- In a list sorted by creation time with pairwise-distinct timestamps, a
member lies beyond the first `k` positions exactly when at least `k`
members have a strictly smaller timestamp. -/
theorem mem_drop_iff_countP (s : List Row) (hs : List.Pairwise rowLe s)
    (hts : (s.map Row.created_at).Nodup) (m : Row) (hm : m ∈ s) (k : Nat) :
    m ∈ s.drop k ↔
      k ≤ s.countP (fun x => decide (x.created_at < m.created_at)) := by
  induction s generalizing k with
  | nil => simp at hm
  | cons a t ih =>
    cases k with
    | zero => simpa using hm
    | succ k =>
      have hhead : ∀ x ∈ t, rowLe a x := (List.pairwise_cons.mp hs).1
      have hanotmem : a.created_at ∉ t.map Row.created_at :=
        (List.nodup_cons.mp hts).1
      rcases List.mem_cons.mp hm with rfl | hmt
      · have hcount :
            (m :: t).countP (fun x => decide (x.created_at < m.created_at)) = 0 := by
          rw [List.countP_eq_zero]
          intro x hx
          rcases List.mem_cons.mp hx with rfl | hxt
          · simp
          · have hle : rowLe m x := hhead x hxt
            simp only [rowLe] at hle
            simp only [decide_eq_true_eq]
            omega
        rw [hcount, List.drop_succ_cons]
        constructor
        · intro hdrop
          have hmem := List.mem_of_mem_drop hdrop
          exact absurd (List.mem_map_of_mem Row.created_at hmem) hanotmem
        · omega
      · have hlt : a.created_at < m.created_at := by
          have hle : rowLe a m := hhead m hmt
          have hne : a.created_at ≠ m.created_at := by
            intro he
            exact hanotmem (he ▸ List.mem_map_of_mem Row.created_at hmt)
          simp only [rowLe] at hle
          omega
        rw [List.drop_succ_cons, List.countP_cons]
        simp only [hlt, decide_true_eq_true, if_pos, decide_eq_true_eq]
        rw [ih (List.pairwise_cons.mp hs).2 (List.nodup_cons.mp hts).2 hmt k]
        omega

/-- Claim C2: for every store with distinct identifiers and distinct
creation timestamps, the trim step run after an insert — read all messages
ordered by creation time ascending and, if the count exceeds 50, delete
the oldest `count - 50` by identifier — leaves exactly
`min count 50` messages, and a stored message survives exactly when at
least `count - 50` stored messages are strictly older; in particular, from
60 inserted messages exactly the 50 most recent by timestamp remain. -/
theorem trim_keeps_most_recent (store : List Row)
    (hids : (store.map Row.id).Nodup)
    (hts : (store.map Row.created_at).Nodup) :
    (trim store).length = min store.length 50 ∧
    ∀ m ∈ store, (m ∈ trim store ↔
      store.length - 50 ≤
        store.countP (fun x => decide (x.created_at < m.created_at))) := by
  have hperm : (readAsc store).Perm store := List.perm_insertionSort rowLe store
  have hlen : (readAsc store).length = store.length := hperm.length_eq
  have hsorted : List.Pairwise rowLe (readAsc store) :=
    List.sorted_insertionSort rowLe store
  have hts' : ((readAsc store).map Row.created_at).Nodup :=
    ((hperm.map Row.created_at).nodup_iff).mpr hts
  have hids' : ((readAsc store).map Row.id).Nodup :=
    ((hperm.map Row.id).nodup_iff).mpr hids
  have hnds : (readAsc store).Nodup := List.Nodup.of_map Row.id hids'
  have hndstore : store.Nodup := List.Nodup.of_map Row.id hids
  by_cases hgt : (readAsc store).length > 50
  · -- more than 50 messages: the oldest count - 50 are deleted
    set k := (readAsc store).length - 50 with hk
    have hkpos : 0 < k := by omega
    have htakelen : ((readAsc store).take k).length = k := by
      rw [List.length_take]
      omega
    have hidslen : (idsToDelete store).length = k := by
      rw [idsToDelete, List.length_map, htakelen]
    have htrim : trim store = store.filter (fun m => m.id ∉ idsToDelete store) := by
      rw [trim, if_pos hgt, if_pos (by omega)]
    have hmemtrim : ∀ m, m ∈ trim store ↔ m ∈ store ∧ m.id ∉ idsToDelete store := by
      intro m
      rw [htrim]
      simp [List.mem_filter]
    -- a stored message's id is slated for deletion iff the message itself
    -- lies among the oldest k of the ascending read
    have hidmem : ∀ m ∈ store, (m.id ∈ idsToDelete store ↔ m ∈ (readAsc store).take k) := by
      intro m hm
      constructor
      · intro hid
        rw [idsToDelete] at hid
        obtain ⟨m2, hm2, hm2id⟩ := List.mem_map.mp hid
        have hm2s : m2 ∈ readAsc store := List.mem_of_mem_take hm2
        have hms : m ∈ readAsc store := hperm.mem_iff.mpr hm
        have : m2 = m := List.inj_on_of_nodup_map hids' hm2s hms hm2id
        exact this ▸ hm2
      · intro hmem
        rw [idsToDelete]
        exact List.mem_map_of_mem Row.id hmem
    have hdropiff : ∀ m ∈ store, (m ∈ trim store ↔ m ∈ (readAsc store).drop k) := by
      intro m hm
      rw [hmemtrim m, hidmem m hm]
      have hms : m ∈ readAsc store := hperm.mem_iff.mpr hm
      constructor
      · rintro ⟨-, hnot⟩
        have := List.take_append_drop k (readAsc store)
        have hsplit : m ∈ (readAsc store).take k ++ (readAsc store).drop k := by
          rw [this]; exact hms
        rcases List.mem_append.mp hsplit with h | h
        · exact absurd h hnot
        · exact h
      · intro hdrop
        refine ⟨hm, fun htake => ?_⟩
        exact List.disjoint_take_drop hnds (le_refl k) htake hdrop
    constructor
    · -- exactly 50 remain
      have htrimnodup : (trim store).Nodup := by
        rw [htrim]
        exact (List.filter_sublist store).nodup hndstore
      have hdropnodup : ((readAsc store).drop k).Nodup :=
        (List.drop_sublist k (readAsc store)).nodup hnds
      have hext : ∀ x, x ∈ trim store ↔ x ∈ (readAsc store).drop k := by
        intro x
        constructor
        · intro hx
          have hxs : x ∈ store := by
            have := (hmemtrim x).mp hx
            exact this.1
          exact (hdropiff x hxs).mp hx
        · intro hx
          have hxs : x ∈ store := hperm.mem_iff.mp (List.mem_of_mem_drop hx)
          exact (hdropiff x hxs).mpr hx
      have hpermtrim : (trim store).Perm ((readAsc store).drop k) :=
        (List.perm_ext_iff_of_nodup htrimnodup hdropnodup).mpr hext
      have : (trim store).length = ((readAsc store).drop k).length := hpermtrim.length_eq
      rw [this, List.length_drop]
      omega
    · intro m hm
      rw [hdropiff m hm,
        mem_drop_iff_countP (readAsc store) hsorted hts' m (hperm.mem_iff.mpr hm) k,
        hperm.countP_eq]
      omega
  · -- at most 50 messages: trim is the identity
    have htrim : trim store = store := by
      rw [trim, if_neg hgt]
    constructor
    · rw [htrim]
      omega
    · intro m hm
      rw [htrim]
      constructor
      · intro _
        omega
      · intro _
        exact hm

/-- A concrete store of 60 messages with distinct identifiers and
strictly increasing creation timestamps. -/
def store60 : List Row :=
  (List.range 60).map (fun i => ⟨toString i, "u1", "Ann", none, "hi", (i : Int)⟩)

theorem trim_keeps_most_recent_witness :
    ((store60.map Row.id).Nodup ∧ (store60.map Row.created_at).Nodup) ∧
    ((trim store60).length = min store60.length 50 ∧
      ∀ m ∈ store60, (m ∈ trim store60 ↔
        store60.length - 50 ≤
          store60.countP (fun x => decide (x.created_at < m.created_at)))) :=
  ⟨⟨by decide, by decide⟩, trim_keeps_most_recent store60 (by decide) (by decide)⟩

/-! ## Realtime relay

The Socket.IO server: connected sockets, the `connectedUsers` registry,
and the event handlers. `io.emit` delivers to every connected socket,
`socket.broadcast.emit` to every socket except the sender, `socket.emit`
to the sender only. Outputs are (recipient socketId, event) pairs in
emission order. -/

/-- The `message:send` payload (the client's `Message` object: the relay
forwards it opaquely). Timestamps are modelled as integers. -/
structure MessageData where
  id : String
  user_id : String
  user_name : String
  user_avatar : Option String
  content : String
  timestamp : Int
  created_at : Int
deriving DecidableEq

/-- An event emitted by the server to a client. -/
inductive ServerEvent where
  | userJoined (userId userName : String) (userAvatar : Option String) (socketId : String)
  | usersOnline (users : List UserSocket)
  | messageReceived (m : MessageData)
  | userTyping (userId userName : String)
  | userStoppedTyping (userId : String)
  | userLeft (userId userName socketId : String)
deriving DecidableEq

/-- An event arriving at the relay, tagged with the socket it came from
(`disconnect` is the transport-level detach). -/
inductive ClientEvent where
  | userJoin (sid : String) (u : UserSocket)
  | messageSend (sid : String) (m : MessageData)
  | typingStart (sid : String) (userId userName : String)
  | typingStop (sid : String) (userId : String)
  | disconnect (sid : String)

/-- The relay's state: the connected sockets and the `connectedUsers` map. -/
structure RelayState where
  sockets : List String
  users : Registry

/-- One step of the relay: the Socket.IO event handlers. Returns the new
state and the list of (recipient, event) deliveries in emission order. -/
def step (st : RelayState) : ClientEvent → RelayState × List (String × ServerEvent)
  | ClientEvent.userJoin sid u =>
      let users := mapSet st.users sid u
      (⟨st.sockets, users⟩,
        st.sockets.map
            (fun s => (s, ServerEvent.userJoined u.userId u.userName u.userAvatar sid))
          ++ [(sid, ServerEvent.usersOnline (mapValues users))])
  | ClientEvent.messageSend _ m =>
      (st, st.sockets.map (fun s => (s, ServerEvent.messageReceived m)))
  | ClientEvent.typingStart sid uid uname =>
      (st, (st.sockets.filter (fun s => s ≠ sid)).map
        (fun s => (s, ServerEvent.userTyping uid uname)))
  | ClientEvent.typingStop sid uid =>
      (st, (st.sockets.filter (fun s => s ≠ sid)).map
        (fun s => (s, ServerEvent.userStoppedTyping uid)))
  | ClientEvent.disconnect sid =>
      let remaining := st.sockets.erase sid
      match mapGet st.users sid with
      | some u =>
          (⟨remaining, mapDelete st.users sid⟩,
            remaining.map (fun s => (s, ServerEvent.userLeft u.userId u.userName sid)))
      | none => (⟨remaining, st.users⟩, [])

theorem count_map_pair (l : List String) (s : String) (e : ServerEvent) :
    (l.map (fun x => (x, e))).count (s, e) = l.count s := by
  induction l with
  | nil => rfl
  | cons a t ih =>
    by_cases h : a = s <;>
      simp [List.count_cons, ih, h]

theorem mapGet_mem_mapValues (m : Registry) (k : String) (v : UserSocket)
    (h : mapGet m k = some v) : v ∈ mapValues m := by
  induction m with
  | nil => simp [mapGet] at h
  | cons a t ih =>
    obtain ⟨k0, v0⟩ := a
    rw [mapGet_cons] at h
    by_cases h0 : k0 = k
    · rw [if_pos h0] at h
      simp only [mapValues, List.map_cons, List.mem_cons]
      exact Or.inl (Option.some.inj h).symm
    · rw [if_neg h0] at h
      simp only [mapValues, List.map_cons, List.mem_cons]
      exact Or.inr (ih h)

/-- Claim C5: a `message:send` event received by the relay is re-broadcast
as `message:received` to every connected client exactly once, the sender
included (no self-suppression). -/
theorem broadcast_fanout_all (st : RelayState) (sid : String) (m : MessageData)
    (hnd : st.sockets.Nodup) (_hsender : sid ∈ st.sockets) :
    ∀ s ∈ st.sockets,
      (step st (ClientEvent.messageSend sid m)).2.count
        (s, ServerEvent.messageReceived m) = 1 := by
  intro s hs
  show (st.sockets.map (fun x => (x, ServerEvent.messageReceived m))).count
    (s, ServerEvent.messageReceived m) = 1
  rw [count_map_pair]
  exact List.count_eq_one_of_mem hnd hs

theorem broadcast_fanout_all_witness :
    ((["A", "B", "C"] : List String).Nodup ∧ "A" ∈ (["A", "B", "C"] : List String)) ∧
    ∀ s ∈ (["A", "B", "C"] : List String),
      (step ⟨["A", "B", "C"], []⟩
          (ClientEvent.messageSend "A" ⟨"m1", "u1", "Ann", none, "hi", 0, 0⟩)).2.count
        (s, ServerEvent.messageReceived ⟨"m1", "u1", "Ann", none, "hi", 0, 0⟩) = 1 :=
  ⟨⟨by decide, by decide⟩,
    broadcast_fanout_all ⟨["A", "B", "C"], []⟩ "A" ⟨"m1", "u1", "Ann", none, "hi", 0, 0⟩
      (by decide) (by decide)⟩

/-- Claim C6: when a socket's transport detaches, if it had joined (has a
registry entry) the relay removes the entry and emits exactly one `left`
event to each remaining socket and none to the departed socket; if it had
never joined, nothing is emitted and the registry is untouched, so
unregistering an unknown connectionId is a no-op. -/
theorem disconnect_behavior (st : RelayState) (sid : String) (u : UserSocket)
    (hnd : st.sockets.Nodup) :
    (mapGet st.users sid = some u →
      (∀ s ∈ st.sockets, s ≠ sid →
         (step st (ClientEvent.disconnect sid)).2.count
           (s, ServerEvent.userLeft u.userId u.userName sid) = 1) ∧
      (∀ e : ServerEvent, (sid, e) ∉ (step st (ClientEvent.disconnect sid)).2) ∧
      mapGet (step st (ClientEvent.disconnect sid)).1.users sid = none) ∧
    (mapGet st.users sid = none →
      (step st (ClientEvent.disconnect sid)).2 = [] ∧
      (step st (ClientEvent.disconnect sid)).1.users = st.users) := by
  constructor
  · intro hu
    have hstep : step st (ClientEvent.disconnect sid) =
        (⟨st.sockets.erase sid, mapDelete st.users sid⟩,
          (st.sockets.erase sid).map
            (fun s => (s, ServerEvent.userLeft u.userId u.userName sid))) := by
      simp [step, hu]
    refine ⟨?_, ?_, ?_⟩
    · intro s hs hne
      rw [hstep]
      show ((st.sockets.erase sid).map
          (fun x => (x, ServerEvent.userLeft u.userId u.userName sid))).count
        (s, ServerEvent.userLeft u.userId u.userName sid) = 1
      rw [count_map_pair]
      exact List.count_eq_one_of_mem (hnd.erase sid)
        ((List.mem_erase_of_ne hne).mpr hs)
    · intro e hmem
      rw [hstep] at hmem
      obtain ⟨x, hx, hxe⟩ := List.mem_map.mp hmem
      have : x = sid := congrArg Prod.fst hxe
      exact hnd.not_mem_erase (this ▸ hx)
    · rw [hstep]
      show mapGet (mapDelete st.users sid) sid = none
      rw [mapGet_mapDelete]
      simp
  · intro hu
    have hstep : step st (ClientEvent.disconnect sid) =
        (⟨st.sockets.erase sid, st.users⟩, []) := by
      simp [step, hu]
    rw [hstep]
    exact ⟨rfl, rfl⟩

theorem disconnect_behavior_witness :
    (["A", "B", "C"] : List String).Nodup ∧
    ((mapGet [("A", ⟨"u1", "Ann", none⟩)] "A" = some ⟨"u1", "Ann", none⟩ →
      (∀ s ∈ (["A", "B", "C"] : List String), s ≠ "A" →
         (step ⟨["A", "B", "C"], [("A", ⟨"u1", "Ann", none⟩)]⟩
             (ClientEvent.disconnect "A")).2.count
           (s, ServerEvent.userLeft "u1" "Ann" "A") = 1) ∧
      (∀ e : ServerEvent,
        ("A", e) ∉ (step ⟨["A", "B", "C"], [("A", ⟨"u1", "Ann", none⟩)]⟩
          (ClientEvent.disconnect "A")).2) ∧
      mapGet (step ⟨["A", "B", "C"], [("A", ⟨"u1", "Ann", none⟩)]⟩
          (ClientEvent.disconnect "A")).1.users "A" = none) ∧
    (mapGet [("A", ⟨"u1", "Ann", none⟩)] "A" = none →
      (step ⟨["A", "B", "C"], [("A", ⟨"u1", "Ann", none⟩)]⟩
          (ClientEvent.disconnect "A")).2 = [] ∧
      (step ⟨["A", "B", "C"], [("A", ⟨"u1", "Ann", none⟩)]⟩
          (ClientEvent.disconnect "A")).1.users = [("A", ⟨"u1", "Ann", none⟩)])) :=
  ⟨by decide,
    disconnect_behavior ⟨["A", "B", "C"], [("A", ⟨"u1", "Ann", none⟩)]⟩ "A"
      ⟨"u1", "Ann", none⟩ (by decide)⟩

/-- Claim C7: `typing:start` and `typing:stop` are re-broadcast as
`user:typing` / `user:stopped-typing` to exactly the other connected
sockets: every socket other than the sender receives them, the sender
never does. -/
theorem typing_excludes_sender (st : RelayState) (sid uid uname : String) :
    (∀ s : String,
      ((s, ServerEvent.userTyping uid uname) ∈
          (step st (ClientEvent.typingStart sid uid uname)).2 ↔
        s ∈ st.sockets ∧ s ≠ sid)) ∧
    (∀ s : String,
      ((s, ServerEvent.userStoppedTyping uid) ∈
          (step st (ClientEvent.typingStop sid uid)).2 ↔
        s ∈ st.sockets ∧ s ≠ sid)) := by
  constructor
  · intro s
    show (s, ServerEvent.userTyping uid uname) ∈
        (st.sockets.filter (fun x => x ≠ sid)).map
          (fun x => (x, ServerEvent.userTyping uid uname)) ↔ _
    simp [List.mem_map, List.mem_filter]
  · intro s
    show (s, ServerEvent.userStoppedTyping uid) ∈
        (st.sockets.filter (fun x => x ≠ sid)).map
          (fun x => (x, ServerEvent.userStoppedTyping uid)) ↔ _
    simp [List.mem_map, List.mem_filter]

/-- Claim C8: on `user:join` the relay registers the (connectionId,
participant) entry, broadcasts a `user:joined` event carrying the
participant and connectionId to every connected socket, and replies — as
the final emission, after the broadcast — to the sender alone with the
online list read from the already-updated registry (which therefore
contains the new participant). -/
theorem join_protocol (st : RelayState) (sid : String) (u : UserSocket) :
    mapGet (step st (ClientEvent.userJoin sid u)).1.users sid = some u ∧
    u ∈ mapValues (step st (ClientEvent.userJoin sid u)).1.users ∧
    (∀ s ∈ st.sockets,
      (s, ServerEvent.userJoined u.userId u.userName u.userAvatar sid) ∈
        (step st (ClientEvent.userJoin sid u)).2) ∧
    (step st (ClientEvent.userJoin sid u)).2.getLast? =
      some (sid, ServerEvent.usersOnline
        (mapValues (step st (ClientEvent.userJoin sid u)).1.users)) ∧
    (∀ p ∈ (step st (ClientEvent.userJoin sid u)).2,
      ∀ l : List UserSocket, p.2 = ServerEvent.usersOnline l → p.1 = sid) := by
  have hget : mapGet (mapSet st.users sid u) sid = some u := by
    rw [mapGet_mapSet]
    simp
  refine ⟨hget, mapGet_mem_mapValues _ _ _ hget, ?_, ?_, ?_⟩
  · intro s hs
    show _ ∈ st.sockets.map
        (fun x => (x, ServerEvent.userJoined u.userId u.userName u.userAvatar sid))
      ++ [(sid, ServerEvent.usersOnline (mapValues (mapSet st.users sid u)))]
    exact List.mem_append.mpr (Or.inl (List.mem_map_of_mem _ hs))
  · exact List.getLast?_concat _
  · intro p hp l hl
    rcases List.mem_append.mp hp with h | h
    · obtain ⟨x, _, hxp⟩ := List.mem_map.mp h
      rw [← hxp] at hl
      exact absurd hl (by simp)
    · rw [List.mem_singleton] at h
      rw [h]

/-! ## Message admission pipeline (client side)

`handleSendMessage`: guard on an empty (post-trim) draft or a missing
authenticated user; insert the row into the store; on insert success run
the count-based trim, emit the message over the socket when connected, and
clear the draft. The insert outcome and socket connectivity are
environment inputs. -/

/-- JavaScript `String.prototype.trim`: strip leading and trailing
whitespace (Lean's own `String.trim` is not used because the model must
evaluate under `decide`). -/
def jsTrim (s : String) : String :=
  ⟨((s.data.dropWhile Char.isWhitespace).reverse.dropWhile Char.isWhitespace).reverse⟩

/-- The authenticated user / editable profile (the `User` type of the
client: id, email, name, optional avatar, creation time). -/
structure User where
  id : String
  email : String
  name : String
  profile_picture_url : Option String
  created_at : Int
deriving DecidableEq

/-- The row the client inserts for a message (the `timestamp` field of the
client object is not part of the insert). -/
def MessageData.toRow (m : MessageData) : Row :=
  ⟨m.id, m.user_id, m.user_name, m.user_avatar, m.content, m.created_at⟩

/-- The chat page state touched by `handleSendMessage`: the draft input,
the persistent store, and the messages emitted over the socket. -/
structure ChatState where
  newMessage : String
  store : List Row
  emitted : List MessageData
deriving DecidableEq

/-- `handleSendMessage`: `user`/`profile` are the auth user and the
locally edited profile (`profile ?? user` supplies name and avatar),
`newId` the generated UUID, `now` the current time, `insertOk` the
outcome of the Supabase insert, `socketConnected` whether the socket is
live. On an empty trimmed draft or missing user: no-op. On insert
failure: nothing further happens. On success: trim, emit when connected,
clear the draft. -/
def handleSendMessage (user profile : Option User) (newId : String) (now : Int)
    (insertOk socketConnected : Bool) (s : ChatState) : ChatState :=
  if jsTrim s.newMessage = "" then s
  else
    match user with
    | none => s
    | some u =>
        let eff := profile.getD u
        let messageData : MessageData :=
          ⟨newId, u.id, eff.name, eff.profile_picture_url,
            jsTrim s.newMessage, now, now⟩
        if insertOk then
          { newMessage := "",
            store := trim (s.store ++ [messageData.toRow]),
            emitted :=
              if socketConnected then s.emitted ++ [messageData] else s.emitted }
        else s

/-- Claim C10: with an empty or all-whitespace draft, or with no
authenticated user, `handleSendMessage` is a complete no-op: no insert,
no trim, no emit, and the draft is left unchanged. -/
theorem send_noop_on_empty_or_unauthenticated (user profile : Option User)
    (newId : String) (now : Int) (insertOk socketConnected : Bool)
    (s : ChatState) (h : jsTrim s.newMessage = "" ∨ user = none) :
    handleSendMessage user profile newId now insertOk socketConnected s = s := by
  rcases h with h | h
  · rw [handleSendMessage.eq_def, if_pos h]
  · subst h
    rw [handleSendMessage.eq_def]
    by_cases ht : jsTrim s.newMessage = ""
    · rw [if_pos ht]
    · rw [if_neg ht]

theorem send_noop_witness :
    (jsTrim "   " = "" ∨ (some ⟨"u1", "a@b.c", "Ann", none, 0⟩ : Option User) = none) ∧
    handleSendMessage (some ⟨"u1", "a@b.c", "Ann", none, 0⟩) none "m1" 7 true true
        ⟨"   ", [], []⟩ = ⟨"   ", [], []⟩ :=
  ⟨Or.inl (by decide),
    send_noop_on_empty_or_unauthenticated (some ⟨"u1", "a@b.c", "Ann", none, 0⟩)
      none "m1" 7 true true ⟨"   ", [], []⟩ (Or.inl (by decide))⟩

/-- Claim C3 counterexample: with a valid draft, an authenticated user and
a connected socket, a failed insert produces no realtime emission, while
the identical call with a successful insert does emit — so the broadcast
is conditioned on persistence success, contradicting the claim that it
proceeds independently of the insert's outcome. -/
theorem send_broadcast_conditioned_on_insert :
    (handleSendMessage (some ⟨"u1", "a@b.c", "Ann", none, 0⟩) none "m1" 5 false true
        ⟨"hi", [], []⟩).emitted = [] ∧
    (handleSendMessage (some ⟨"u1", "a@b.c", "Ann", none, 0⟩) none "m1" 5 true true
        ⟨"hi", [], []⟩).emitted ≠ [] := by
  constructor
  · decide
  · decide

/-- Claim C3 amended: if the store insert fails, the send operation stops
entirely — no trim, no realtime emit, and the draft is left unchanged (the
realtime broadcast is conditioned on insert success, not independent of
it). -/
theorem send_insert_failure_is_noop (user profile : Option User)
    (newId : String) (now : Int) (socketConnected : Bool) (s : ChatState) :
    handleSendMessage user profile newId now false socketConnected s = s := by
  rw [handleSendMessage.eq_def]
  by_cases ht : jsTrim s.newMessage = ""
  · rw [if_pos ht]
  · rw [if_neg ht]
    cases user with
    | none => rfl
    | some u => simp

/-! ## Initial message-history hydration -/

/-- `loadMessages`: the read performed on client attach — all messages
ordered by creation time ascending, limited to 100. -/
def loadMessages (store : List Row) : List Row :=
  (readAsc store).take 100

/-- What the specification says the hydration read returns: the most
recent 100 messages, in ascending creation-time order (the last 100 of
the ascending read). -/
def loadMessagesSpecRecent (store : List Row) : List Row :=
  (readAsc store).drop ((readAsc store).length - 100)

/-- A store of 101 messages with distinct identifiers and strictly
increasing creation timestamps. -/
def store101 : List Row :=
  (List.range 101).map (fun i => ⟨toString i, "u1", "Ann", none, "hi", (i : Int)⟩)

/-- Claim C4 counterexample: on a store of 101 messages the hydration read
returns the oldest 100, not the most recent 100 — the newest message
(timestamp 100) is in the store but absent from the result. -/
theorem load_not_most_recent :
    loadMessages store101 ≠ loadMessagesSpecRecent store101 ∧
    (⟨"100", "u1", "Ann", none, "hi", 100⟩ : Row) ∈ store101 ∧
    (⟨"100", "u1", "Ann", none, "hi", 100⟩ : Row) ∉ loadMessages store101 := by
  refine ⟨by decide, by decide, by decide⟩

/-- Claim C4 amended: the hydration read returns the first
`min count 100` messages of the ascending creation-time order — the
oldest 100 when the store holds more than 100 (every excluded message is
at least as recent as every returned one); only for stores holding at
most 100 messages is this all of them, ascending. -/
theorem load_oldest_100_ascending (store : List Row) :
    List.Pairwise rowLe (loadMessages store) ∧
    (loadMessages store).length = min store.length 100 ∧
    ∀ m ∈ loadMessages store, ∀ m2 ∈ store, m2 ∉ loadMessages store →
      m.created_at ≤ m2.created_at := by
  have hperm : (readAsc store).Perm store := List.perm_insertionSort rowLe store
  have hsorted : List.Pairwise rowLe (readAsc store) :=
    List.sorted_insertionSort rowLe store
  refine ⟨hsorted.sublist (List.take_sublist 100 (readAsc store)), ?_, ?_⟩
  · rw [loadMessages, List.length_take, hperm.length_eq]
    omega
  · intro m hm m2 hm2 hm2not
    have hm2asc : m2 ∈ readAsc store := hperm.mem_iff.mpr hm2
    have hsplit : m2 ∈ (readAsc store).take 100 ++ (readAsc store).drop 100 := by
      rw [List.take_append_drop]
      exact hm2asc
    rcases List.mem_append.mp hsplit with h | h
    · exact absurd h hm2not
    · have hpw := hsorted
      rw [← List.take_append_drop 100 (readAsc store), List.pairwise_append] at hpw
      exact hpw.2.2 m hm m2 h

/-! ## Age-based expiry (store-side trigger) -/

/-- Three days, the expiry age, in seconds. -/
def threeDays : Int := 3 * 24 * 60 * 60

/-- The `auto_delete_old_messages` trigger function: delete every message
whose creation time is older than three days. -/
def auto_delete_old_messages (now : Int) (store : List Row) : List Row :=
  store.filter (fun m => ¬ (m.created_at < now - threeDays))

/-- The AFTER INSERT trigger on `messages`: the row is inserted, then the
age-based deletion runs over the whole table. -/
def insertWithAgeTrigger (now : Int) (store : List Row) (m : Row) : List Row :=
  auto_delete_old_messages now (store ++ [m])

/-- Claim C9: after any insert fires the age-expiry trigger, no message
whose creation timestamp is more than 3 days old remains in the table,
hence none appears in any subsequent read (in particular the hydration
read). -/
theorem age_expiry_removes_old (now : Int) (store : List Row) (m r : Row)
    (h : r.created_at < now - threeDays) :
    r ∉ insertWithAgeTrigger now store m ∧
    r ∉ loadMessages (insertWithAgeTrigger now store m) := by
  have hnot : r ∉ insertWithAgeTrigger now store m := by
    intro hr
    have := (List.mem_filter.mp hr).2
    simp only [decide_eq_true_eq] at this
    exact this h
  refine ⟨hnot, fun hr => hnot ?_⟩
  have hasc : r ∈ readAsc (insertWithAgeTrigger now store m) :=
    List.mem_of_mem_take hr
  exact (List.perm_insertionSort rowLe _).mem_iff.mp hasc

theorem age_expiry_removes_old_witness :
    ((0 : Int) < 300000 - threeDays) ∧
    ((⟨"old", "u1", "Ann", none, "hi", 0⟩ : Row) ∉
        insertWithAgeTrigger 300000 [] ⟨"old", "u1", "Ann", none, "hi", 0⟩ ∧
      (⟨"old", "u1", "Ann", none, "hi", 0⟩ : Row) ∉
        loadMessages (insertWithAgeTrigger 300000 [] ⟨"old", "u1", "Ann", none, "hi", 0⟩)) :=
  ⟨by decide,
    age_expiry_removes_old 300000 [] ⟨"old", "u1", "Ann", none, "hi", 0⟩
      ⟨"old", "u1", "Ann", none, "hi", 0⟩ (by decide)⟩

end Rvnzcomm
